import Mathlib

/-!
# Mini-Shell (`shell.c`): a shallow embedding

C strings are represented by the list of their characters before the
terminating NUL.  A `char*` that may be `NULL` is an `Option (List Char)`,
and a NULL-terminated `char**` vector is the list of its entries before the
terminating `NULL`.

Writes to the fixed-size arrays of the program are bounds-checked in the
model: a write at an index outside the array, like a read of a slot that
was never written, is undefined behaviour in C and ends the model with a
`Fault`.
-/

namespace MiniShell

/-- The macro `#define BUFFSIZE 80`. -/
def BUFFSIZE : Nat := 80

/-- The macro `#define DELIMITER " \n\t\r"`. -/
def DELIMITER : List Char := [' ', '\n', '\t', '\r']

/-- The delimiter string `"|"` that `pipe_handler` passes to `strtok`. -/
def PIPE : List Char := ['|']

/-- Ways in which an execution leaves defined behaviour, or the model's
fuel. -/
inductive Fault where
  | outOfBounds
  | uninitialised
  | nullDeref
  | outOfFuel
  deriving DecidableEq, Repr

/-- The C string stored at the start of a character buffer: the characters
before the first NUL. -/
def cstr (buf : List Char) : List Char :=
  buf.takeWhile (fun c => decide (c ≠ Char.ofNat 0))

/-- The library function `strtok(s, delim)`.  The hidden save pointer of `strtok` is the third
argument, given as the rest of the string it points to; the result is the
token (or `none` for `NULL`) and the new save pointer.  Leading delimiters
are skipped, the token runs up to the next delimiter, which is overwritten
by NUL, and the save pointer moves just past it. -/
def strtok (s : Option (List Char)) (delim : List Char) (saved : List Char) :
    Option (List Char) × List Char :=
  let start := (match s with
    | some str => str
    | none => saved).dropWhile (fun c => decide (c ∈ delim))
  match start with
  | [] => (none, [])
  | _ :: _ =>
    (some (start.takeWhile (fun c => decide (c ∉ delim))),
      (start.dropWhile (fun c => decide (c ∉ delim))).tail)

/-- The loop shared by `parse` and `pipe_handler`:
`while (word) { words[i] = word; i++; word = strtok(NULL, delim); }`
followed by `words[i] = NULL;`.  `words` holds the entries written so far,
so `i = words.length`; every write is checked against the `BUFFSIZE` slots
of the array. -/
def strtok_loop (delim : List Char) :
    Nat → Option (List Char) → List Char → List (List Char) →
      Except Fault (List (List Char) × List Char)
  | _, none, saved, words =>
    if words.length < BUFFSIZE then .ok (words, saved) else .error .outOfBounds
  | 0, some _, _, _ => .error .outOfFuel
  | fuel + 1, some word, saved, words =>
    if words.length < BUFFSIZE then
      strtok_loop delim fuel (strtok none delim saved).1 (strtok none delim saved).2
        (words ++ [word])
    else .error .outOfBounds

/-- The string `strtok` scans: `s`, or the saved rest when `s` is `NULL`. -/
def scanned (s : Option (List Char)) (saved : List Char) : List Char :=
  match s with
  | some str => str
  | none => saved

/-- Number of characters `strtok` will scan.  It bounds the iterations of
`strtok_loop`, whose every round consumes at least one of them. -/
def scanLength (s : Option (List Char)) (saved : List Char) : Nat :=
  (scanned s saved).length

/-- What a function call does to the calling process. -/
inductive Outcome (α : Type) where
  /-- the call returns `v` to its caller, in the shell process -/
  | ret (v : α)
  /-- the call ends in `exit(status)`, in the shell process (`inChild = false`) or in a
  forked child -/
  | exit (inChild : Bool) (status : Int)
  /-- the image of the forked child was replaced by `execvp` -/
  | replaced
  /-- undefined behaviour, in the shell process (`inChild = false`) or in a
  forked child -/
  | fault (inChild : Bool) (f : Fault)
  deriving DecidableEq, Repr

/-- The macro `EXIT_FAILURE` of the system header `<stdlib.h>`, a failure
status in the words of the spec: 1, as on every POSIX system. -/
def EXIT_FAILURE : Int := 1

/-- The function `char **parse(char *line)`.  `alloc` tells whether `malloc` returned a
non-NULL block for `words`; `saved` is the save pointer of `strtok` on
entry.  Returns the token vector and the save pointer on exit. -/
def parse (alloc : Bool) (line : Option (List Char)) (saved : List Char) :
    Outcome (List (List Char) × List Char) :=
  if alloc then
    match strtok_loop DELIMITER (scanLength line saved) (strtok line DELIMITER saved).1
        (strtok line DELIMITER saved).2 [] with
    | .ok r => .ret r
    | .error f => .fault false f
  else .exit false EXIT_FAILURE

/-- The maximal runs of characters outside `delim`, left to right: the
pieces between delimiters, the empty pieces left out. -/
def maximalRuns (delim : List Char) (line : List Char) : List (List Char) :=
  (line.splitOnP (fun c => decide (c ∈ delim))).filter (fun t => decide (t ≠ []))

/-! ## The environment -/

/-- A system call made by the process, in program order. -/
inductive Op where
  | pipe
  | fork
  | wait
  | waitpid (pid : Int)
  | dup2 (oldfd newfd : Int)
  | close (fd : Int)
  | execvp (file : List Char) (argv : List (List Char))
  | chdir (path : List Char)
  | time
  deriving DecidableEq, Repr

/-- The state a command round can change: the working directory, what was
written to the two output streams, and the system calls made so far. -/
structure World where
  cwd : List Char
  stdout : List String
  stderr : List String
  ops : List Op
  deriving DecidableEq, Repr

/-- The answers of the operating system during one command round. -/
structure Sys where
  /-- result of `chdir(path)` from the working directory: the directory reached, or
  `none` when the call fails -/
  chdir : List Char → List Char → Option (List Char)
  /-- value of `time(NULL)` -/
  time : Int
  /-- text of `asctime(gmtime(&t))` -/
  asctime_gmtime : Int → String
  /-- return value of `pipe(pipefd)` -/
  pipe : Int
  /-- the descriptors `pipefd[0]` (read end) and `pipefd[1]` (write end) -/
  pipefd : Int × Int
  /-- return value of the first `fork()` of the round -/
  fork1 : Int
  /-- return value of the second `fork()` of the round -/
  fork2 : Int
  /-- whether `execvp(file, argv)`, called on a string `file`, replaces the
  process image (it returns `-1` otherwise) -/
  execvp : List Char → List (List Char) → Bool
  /-- whether `malloc` succeeds in `get_line` -/
  malloc_line : Bool
  /-- whether `malloc` succeeds in the first call of `parse` -/
  malloc_words : Bool
  /-- whether `malloc` succeeds in the second call of `parse` -/
  malloc_words2 : Bool

/-- Record a system call. -/
def World.op (w : World) (o : Op) : World := { w with ops := w.ops ++ [o] }

/-- The call `printf(text)`. -/
def World.print (w : World) (text : String) : World :=
  { w with stdout := w.stdout ++ [text] }

/-- The call `fprintf(stderr, text)`. -/
def World.eprint (w : World) (text : String) : World :=
  { w with stderr := w.stderr ++ [text] }

/-- The macro `STDIN_FILENO` of `<unistd.h>`. -/
def STDIN_FILENO : Int := 0

/-- The macro `STDOUT_FILENO` of `<unistd.h>`. -/
def STDOUT_FILENO : Int := 1

/-! ## Built-in commands -/

/-- The four built-in handlers. -/
inductive Builtin where
  | shell_exit
  | shell_cd
  | shell_help
  | shell_date
  deriving DecidableEq, Repr

/-- The table `int (*built_in_commands[]) (char**)`. -/
def built_in_commands : List Builtin :=
  [.shell_exit, .shell_cd, .shell_help, .shell_date]

/-- The variable `int number_of_built_in = 4;`. -/
def number_of_built_in : Nat := 4

/-- The table `char* built_in_strings[]`. -/
def built_in_strings : List (List Char) :=
  ["exit".toList, "cd".toList, "help".toList, "date".toList]

/-- The library function `strcmp`: negative, zero or positive as the first string is less than,
equal to or greater than the second. -/
def strcmp : List Char → List Char → Int
  | [], [] => 0
  | [], _ :: _ => -1
  | _ :: _, [] => 1
  | a :: as, b :: bs =>
    if a = b then strcmp as bs else if a.toNat < b.toNat then -1 else 1

/-- The function `int shell_exit(char **args)`. -/
def shell_exit (_args : List (List Char)) (w : World) : Outcome Int × World :=
  (.ret 0, w)

/-- The function `int shell_cd(char **args)`.  `args[1]` is the second entry, or the
terminating `NULL` when the vector has one entry; behind the terminator the
array was never written. -/
def shell_cd (sys : Sys) (args : List (List Char)) (w : World) : Outcome Int × World :=
  match args with
  | [] => (.fault false .uninitialised, w)
  | [_] => (.ret 1, w.eprint "cd_shell needs an argument\n")
  | _ :: path :: _ =>
    match sys.chdir w.cwd path with
    | some dir => (.ret 1, { w.op (.chdir path) with cwd := dir })
    | none => (.ret 1, (w.op (.chdir path)).eprint "couldn't load that directory\n")

/-- The function `int shell_help(char** args)`. -/
def shell_help (_args : List (List Char)) (w : World) : Outcome Int × World :=
  (.ret 1, ((((((((w.print "[CS 5007] Assignment 4\n").print
    "Mini-Shell by Seth Pate\n").print
    "August 9th, 2018\n").print
    "This shell includes the following commands:\n").print
    "\tcd <arg>: changes directory to <arg>\n").print
    "\thelp: calls this help file\n").print
    "\tdate: returns the current date and time\n").print
    "\texit: exits the shell and terminates child procs\n").print
    "all other commands are executed by your shell.\n")

/-- The function `int shell_date(char** args)`.  `%ju` prints the time converted to
`uintmax_t`, that is modulo `2 ^ 64`. -/
def shell_date (sys : Sys) (_args : List (List Char)) (w : World) : Outcome Int × World :=
  if sys.time ≠ -1 then
    (.ret 1, (((w.op .time).print
      ("Current Greenwich Mean Time: " ++ sys.asctime_gmtime sys.time)).print
      (toString (sys.time % 2 ^ 64) ++ " seconds from January 1st, 1970\n")))
  else (.ret 1, w.op .time)

/-- Run the handler stored in a slot of `built_in_commands`. -/
def run_builtin (h : Builtin) (sys : Sys) (args : List (List Char)) (w : World) :
    Outcome Int × World :=
  match h with
  | .shell_exit => shell_exit args w
  | .shell_cd => shell_cd sys args w
  | .shell_help => shell_help args w
  | .shell_date => shell_date sys args w

/-! ## Running commands -/

/-- What each forked child ends with: `execvp(argv[0], argv);` followed, when
the call returns, by `fprintf(stderr, msg); exit(EXIT_FAILURE);`.  `argv[0]`
goes to `execvp` unchecked: for an empty vector it is `NULL`, which `execvp`
may not be given, and the child leaves defined behaviour. -/
def exec_or_exit (sys : Sys) (argv : List (List Char)) (msg : String) (w : World) :
    Outcome Int × World :=
  match argv with
  | [] => (.fault true .nullDeref, w)
  | file :: _ =>
    if sys.execvp file argv then (.replaced, w.op (.execvp file argv))
    else (.exit true EXIT_FAILURE, (w.op (.execvp file argv)).eprint msg)

/-- The function `int run_external(char** argv)`.  After `fork` returns `0`
the code runs in the child. -/
def run_external (sys : Sys) (argv : List (List Char)) (w : World) : Outcome Int × World :=
  let w1 := w.op .fork
  if sys.fork1 = 0 then
    exec_or_exit sys argv "Command not found -- did you mean something else?\n" w1
  else if sys.fork1 < 0 then
    (.ret EXIT_FAILURE, w1.eprint "fork failed\n")
  else (.ret 1, w1.op .wait)

/-- The call `execute_shell` ends with. -/
inductive Call where
  /-- no call: `argv[0] == NULL` and `return 1` -/
  | nothing
  /-- the call `(*built_in_commands[i])(argv)` -/
  | builtin (h : Builtin) (args : List (List Char))
  /-- the call `run_external(argv)` -/
  | external (argv : List (List Char))
  deriving DecidableEq, Repr

/-- The dispatch of `execute_shell`: the first `i < number_of_built_in` with
`strcmp(argv[0], built_in_strings[i]) == 0` selects `built_in_commands[i]`;
without one the command is external. -/
def execute_shell_call (argv : List (List Char)) : Call :=
  match argv with
  | [] => .nothing
  | name :: _ =>
    match ((built_in_strings.zip built_in_commands).take number_of_built_in).find?
        (fun entry => decide (strcmp name entry.1 = 0)) with
    | some entry => .builtin entry.2 argv
    | none => .external argv

/-- The function `int execute_shell(char **argv)`. -/
def execute_shell (sys : Sys) (argv : List (List Char)) (w : World) : Outcome Int × World :=
  match execute_shell_call argv with
  | .nothing => (.ret 1, w)
  | .builtin h args => run_builtin h sys args w
  | .external args => run_external sys args w

/-- The function `int pipe_execute(char **left, char **right)`. -/
def pipe_execute (sys : Sys) (left right : List (List Char)) (w : World) :
    Outcome Int × World :=
  let w1 := w.op .pipe
  if sys.pipe = -1 then
    (.exit false EXIT_FAILURE, w1.eprint "error creating pipe\n")
  else
    let w2 := w1.op .fork
    if sys.fork1 = 0 then
      exec_or_exit sys left "error in left fork\n"
        (((w2.op (.dup2 sys.pipefd.2 STDOUT_FILENO)).op (.close sys.pipefd.1)).op
          (.close sys.pipefd.2))
    else if sys.fork1 < 0 then
      (.exit false EXIT_FAILURE, w2.eprint "error forking\n")
    else
      let w3 := (w2.op (.waitpid sys.fork1)).op .fork
      if sys.fork2 = 0 then
        exec_or_exit sys right "error in right fork\n"
          (((w3.op (.dup2 sys.pipefd.1 STDIN_FILENO)).op (.close sys.pipefd.2)).op
            (.close sys.pipefd.1))
      else if sys.fork2 < 0 then
        (.exit false EXIT_FAILURE, w3.eprint "error forking\n")
      else
        (.ret 0, ((w3.op (.close sys.pipefd.1)).op (.close sys.pipefd.2)).op
          (.waitpid sys.fork2))

/-- The `strtok` split of `pipe_handler`: the entries written to
`components` before the terminating `NULL`, and the save pointer. -/
def pipe_components (line : List Char) (saved : List Char) :
    Except Fault (List (List Char) × List Char) :=
  strtok_loop PIPE (scanLength (some line) saved) (strtok (some line) PIPE saved).1
    (strtok (some line) PIPE saved).2 []

/-- Reading `components[k]` after the split: an entry, the terminating
`NULL` at index `i`, or a slot of the local array that was never written. -/
def read_component (components : List (List Char)) (k : Nat) :
    Except Fault (Option (List Char)) :=
  if k < components.length then .ok components[k]?
  else if k = components.length then .ok none
  else .error .uninitialised

/-- The first part of `pipe_handler`, up to the call of `pipe_execute`: the
two token vectors `left` and `right` passed to it, and the save pointer. -/
def pipe_handler_args (sys : Sys) (line : List Char) (saved : List Char) :
    Outcome (List (List Char) × List (List Char) × List Char) :=
  match pipe_components line saved with
  | .error f => .fault false f
  | .ok (components, saved1) =>
    match read_component components 0 with
    | .error f => .fault false f
    | .ok c0 =>
      match parse sys.malloc_words c0 saved1 with
      | .ret (left, saved2) =>
        match read_component components 1 with
        | .error f => .fault false f
        | .ok c1 =>
          match parse sys.malloc_words2 c1 saved2 with
          | .ret (right, saved3) => .ret (left, right, saved3)
          | .exit c st => .exit c st
          | .replaced => .replaced
          | .fault c f => .fault c f
      | .exit c st => .exit c st
      | .replaced => .replaced
      | .fault c f => .fault c f

/-- The function `int pipe_handler(char *line)`. -/
def pipe_handler (sys : Sys) (line : List Char) (saved : List Char) (w : World) :
    Outcome (Int × List Char) × World :=
  match pipe_handler_args sys line saved with
  | .ret (left, right, saved1) =>
    match pipe_execute sys left right w with
    | (.ret _, w1) => (.ret (0, saved1), w1)
    | (.exit c st, w1) => (.exit c st, w1)
    | (.replaced, w1) => (.replaced, w1)
    | (.fault c f, w1) => (.fault c f, w1)
  | .exit c st => (.exit c st, w)
  | .replaced => (.replaced, w)
  | .fault c f => (.fault c f, w)

/-- The pipe split as the shell loop performs it: the `strstr(line, "|")`
test of `loop_shell`, then `components[0]` and `components[1]` of
`pipe_handler`.  `none` when the line is not routed to `pipe_handler`. -/
def pipe_split (line : List Char) (saved : List Char) :
    Except Fault (Option (Option (List Char) × Option (List Char))) :=
  if '|' ∈ line then
    match pipe_components line saved with
    | .error f => .error f
    | .ok (components, _) =>
      match read_component components 0, read_component components 1 with
      | .ok c0, .ok c1 => .ok (some (c0, c1))
      | .error f, _ => .error f
      | _, .error f => .error f
  else .ok none

/-! ## Reading a line and the shell loop -/

/-- The loop of `get_line`.  `stdin` is the unread input (`getchar` returns
`EOF` when it is empty), `line` the characters stored so far, so that
`i = line.length`; every write is checked against the `BUFFSIZE` bytes of
the buffer.  Returns the characters stored before the terminating NUL and
the unread input. -/
def get_line_loop : List Char → List Char → Except Fault (List Char × List Char)
  | [], line =>
    if line.length < BUFFSIZE then .ok (line, []) else .error .outOfBounds
  | c :: rest, line =>
    if c = '\n' then
      if line.length < BUFFSIZE then .ok (line, rest) else .error .outOfBounds
    else if line.length < BUFFSIZE then get_line_loop rest (line ++ [c])
    else .error .outOfBounds

/-- The function `char *get_line()`.  The result of `malloc` is not checked, so a failed
allocation makes the first write go through a null pointer. -/
def get_line (alloc : Bool) (stdin : List Char) : Except Fault (List Char × List Char) :=
  if alloc then get_line_loop stdin [] else .error .nullDeref

/-- How a run of the shell loop over the given rounds ends. -/
inductive LoopEnd where
  /-- the condition `while (fn_signal)` was false after this many rounds -/
  | stopped (rounds : Nat)
  /-- the process left the loop inside the round with this number (from 1):
  `how` is never `ret` -/
  | left (round : Nat) (how : Outcome Unit)
  /-- the condition was true after each of the rounds -/
  | running (rounds : Nat)
  deriving DecidableEq, Repr

/-- The function `void loop_shell()`, run for as many rounds as `rounds` has entries, each
entry giving the answers of the system in that round.  `fn_signal` is the
current value of the variable of that name: the loop is entered with the
indeterminate value of the uninitialised variable.  `done` counts the rounds
completed.  The calls of `free` are not modelled. -/
def loop_shell_from : List Sys → Int → List Char → List Char → World → Nat →
    LoopEnd × World
  | [], _, _, _, w, done => (.running done, w)
  | sys :: rounds, fn_signal, stdin, saved, w, done =>
    let w1 := w.print "mini-shell> "
    match get_line sys.malloc_line stdin with
    | .error f => (.left (done + 1) (.fault false f), w1)
    | .ok (buf, stdin1) =>
      let line := cstr buf
      if '|' ∈ line then
        match pipe_handler sys line saved w1 with
        | (.ret (_, saved1), w2) =>
          if fn_signal ≠ 0 then loop_shell_from rounds fn_signal stdin1 saved1 w2 (done + 1)
          else (.stopped (done + 1), w2)
        | (.exit c st, w2) => (.left (done + 1) (.exit c st), w2)
        | (.replaced, w2) => (.left (done + 1) .replaced, w2)
        | (.fault c f, w2) => (.left (done + 1) (.fault c f), w2)
      else
        match parse sys.malloc_words (some line) saved with
        | .ret (args, saved1) =>
          match execute_shell sys args w1 with
          | (.ret v, w2) =>
            if v ≠ 0 then loop_shell_from rounds v stdin1 saved1 w2 (done + 1)
            else (.stopped (done + 1), w2)
          | (.exit c st, w2) => (.left (done + 1) (.exit c st), w2)
          | (.replaced, w2) => (.left (done + 1) .replaced, w2)
          | (.fault c f, w2) => (.left (done + 1) (.fault c f), w2)
        | .exit c st => (.left (done + 1) (.exit c st), w1)
        | .replaced => (.left (done + 1) .replaced, w1)
        | .fault c f => (.left (done + 1) (.fault c f), w1)

/-- The function `void loop_shell()` from the start of the program: `garbage` is the
indeterminate initial value of `fn_signal`. -/
def loop_shell (rounds : List Sys) (garbage : Int) (stdin : List Char) (w : World) :
    LoopEnd × World :=
  loop_shell_from rounds garbage stdin [] w 0

/-- The `|`-separated segments of a line, empty ones included: the line
split at every `|`. -/
def pipe_segments (line : List Char) : List (List Char) :=
  line.splitOnP (fun c => decide (c = '|'))

/-! ## Sample values -/

/-- An environment in which every call succeeds and the process is the
parent after each `fork`; `/tmp` is the only directory `chdir` reaches. -/
def sysOK : Sys where
  chdir := fun _ path => if path = "/tmp".toList then some path else none
  time := 1533772800
  asctime_gmtime := fun _ => "Thu Aug  9 00:00:00 2018\n"
  pipe := 0
  pipefd := (3, 4)
  fork1 := 100
  fork2 := 101
  execvp := fun _ _ => true
  malloc_line := true
  malloc_words := true
  malloc_words2 := true

/-- A start state: working directory `/`, nothing written, no call made. -/
def world0 : World where
  cwd := "/".toList
  stdout := []
  stderr := []
  ops := []

/-! ## Maximal runs -/

theorem maximalRuns_nil (D : List Char) : maximalRuns D [] = [] := by
  simp [maximalRuns]

theorem maximalRuns_cons_delim (D : List Char) (c : Char) (s : List Char) (h : c ∈ D) :
    maximalRuns D (c :: s) = maximalRuns D s := by
  simp [maximalRuns, h]

theorem maximalRuns_dropWhile (D : List Char) (s : List Char) :
    maximalRuns D (s.dropWhile (fun c => decide (c ∈ D))) = maximalRuns D s := by
  induction s with
  | nil => rfl
  | cons c s ih =>
    by_cases h : c ∈ D
    · rw [List.dropWhile_cons_of_pos (by simpa using h), ih, maximalRuns_cons_delim D c s h]
    · rw [List.dropWhile_cons_of_neg (by simpa using h)]

/-- Unfolding of `maximalRuns` at a string that starts with a non-delimiter:
the first run, then the runs of what follows the delimiter ending it. -/
theorem maximalRuns_cons_token (D : List Char) (c : Char) (s : List Char) (h : c ∉ D) :
    maximalRuns D (c :: s) =
      (c :: s).takeWhile (fun c => decide (c ∉ D)) ::
        maximalRuns D ((c :: s).dropWhile (fun c => decide (c ∉ D))).tail := by
  have hsplit := List.takeWhile_append_dropWhile (fun c => decide (c ∉ D)) (c :: s)
  have htk : ∀ x ∈ (c :: s).takeWhile (fun c => decide (c ∉ D)),
      ¬ (fun c => decide (c ∈ D)) x = true := by
    intro x hx
    have := List.mem_takeWhile_imp hx
    simpa using this
  have hne : (c :: s).takeWhile (fun c => decide (c ∉ D)) ≠ [] := by
    rw [List.takeWhile_cons_of_pos (by simpa using h)]
    exact List.cons_ne_nil _ _
  cases hrest : (c :: s).dropWhile (fun c => decide (c ∉ D)) with
  | nil =>
    rw [hrest, List.append_nil] at hsplit
    rw [hsplit] at htk hne ⊢
    simp only [maximalRuns, List.splitOnP_eq_single _ _ htk, List.tail_nil, List.splitOnP_nil]
    simp
  | cons d r =>
    have hd : (fun c => decide (c ∈ D)) d = true := by
      have := List.head_dropWhile_not (fun c => decide (c ∉ D)) (c :: s)
        (by rw [hrest]; exact List.cons_ne_nil _ _)
      simp only [hrest, List.head_cons] at this
      simpa using this
    rw [hrest] at hsplit
    conv_lhs => rw [← hsplit]
    simp only [maximalRuns, List.splitOnP_first _ _ htk d hd, List.tail_cons]
    rw [List.filter_cons_of_pos (by simpa using hne)]

/-- Every maximal run is non-empty and free of delimiters. -/
theorem maximalRuns_mem (D : List Char) (s t : List Char) (ht : t ∈ maximalRuns D s) :
    t ≠ [] ∧ ∀ c ∈ t, c ∉ D := by
  obtain ⟨n, hn⟩ : ∃ n, s.length = n := ⟨_, rfl⟩
  induction n using Nat.strong_induction_on generalizing s with
  | _ n ih =>
    cases s with
    | nil => simp [maximalRuns_nil] at ht
    | cons c s =>
      by_cases h : c ∈ D
      · rw [maximalRuns_cons_delim D c s h] at ht
        exact ih s.length (by simp [← hn]) s ht rfl
      · rw [maximalRuns_cons_token D c s h] at ht
        rcases List.mem_cons.mp ht with rfl | ht
        · refine ⟨?_, ?_⟩
          · rw [List.takeWhile_cons_of_pos (by simpa using h)]
            exact List.cons_ne_nil _ _
          · intro x hx
            simpa using List.mem_takeWhile_imp hx
        · refine ih _ ?_ _ ht rfl
          have h1 := (List.dropWhile_sublist (fun c => decide (c ∉ D)) (l := c :: s)).length_le
          have h2 := List.length_tail ((c :: s).dropWhile (fun c => decide (c ∉ D)))
          rw [List.dropWhile_cons_of_pos (by simpa using h)] at h1 h2 ⊢
          simp only [List.length_cons] at h1 hn
          have h3 := (List.dropWhile_sublist (fun c => decide (c ∉ D)) (l := s)).length_le
          omega

/-- A string of `n` characters has at most `(n + 1) / 2` maximal runs. -/
theorem maximalRuns_length (D : List Char) (s : List Char) :
    2 * (maximalRuns D s).length ≤ s.length + 1 := by
  obtain ⟨n, hn⟩ : ∃ n, s.length = n := ⟨_, rfl⟩
  induction n using Nat.strong_induction_on generalizing s with
  | _ n ih =>
    cases s with
    | nil => simp [maximalRuns_nil]
    | cons c s =>
      by_cases h : c ∈ D
      · rw [maximalRuns_cons_delim D c s h]
        have := ih s.length (by simp [← hn]) s rfl
        simp only [List.length_cons] at hn ⊢
        omega
      · rw [maximalRuns_cons_token D c s h, List.dropWhile_cons_of_pos (by simpa using h)]
        have h3 := (List.dropWhile_sublist (fun c => decide (c ∉ D)) (l := s)).length_le
        simp only [List.length_cons] at hn ⊢
        cases hrest : s.dropWhile (fun c => decide (c ∉ D)) with
        | nil => simp [maximalRuns_nil]
        | cons d r =>
          rw [hrest] at h3
          simp only [List.length_cons, List.tail_cons] at h3 ⊢
          have := ih r.length (by omega) r rfl
          omega

/-- A string of delimiters only has no run. -/
theorem maximalRuns_all_delim (D : List Char) (s : List Char) (h : ∀ c ∈ s, c ∈ D) :
    maximalRuns D s = [] := by
  induction s with
  | nil => exact maximalRuns_nil D
  | cons c s ih =>
    rw [maximalRuns_cons_delim D c s (h c (List.mem_cons_self _ _))]
    exact ih (fun x hx => h x (List.mem_cons_of_mem _ hx))

/-! ## `strtok` and the token loop -/

/-- One call of `strtok` returns the first maximal run of the scanned
string and saves a strictly shorter rest holding the remaining runs; it
returns `NULL` when there is no run. -/
theorem strtok_spec (D : List Char) (s : Option (List Char)) (saved : List Char) :
    (maximalRuns D (scanned s saved) = [] ∧ strtok s D saved = (none, [])) ∨
    (∃ t rest, strtok s D saved = (some t, rest) ∧
      maximalRuns D (scanned s saved) = t :: maximalRuns D rest ∧
      rest.length < (scanned s saved).length) := by
  have hsrc : strtok s D saved =
      (match (scanned s saved).dropWhile (fun c => decide (c ∈ D)) with
        | [] => (none, [])
        | c :: r => (some ((c :: r).takeWhile (fun c => decide (c ∉ D))),
            ((c :: r).dropWhile (fun c => decide (c ∉ D))).tail)) := by
    cases s <;> simp only [strtok, scanned] <;> split <;> simp_all
  have hle := (List.dropWhile_sublist (fun c => decide (c ∈ D))
    (l := scanned s saved)).length_le
  rw [← maximalRuns_dropWhile D (scanned s saved), hsrc]
  cases hstart : (scanned s saved).dropWhile (fun c => decide (c ∈ D)) with
  | nil => exact Or.inl ⟨maximalRuns_nil D, rfl⟩
  | cons c r =>
    have hc : c ∉ D := by
      have := List.head_dropWhile_not (fun c => decide (c ∈ D)) (scanned s saved)
        (by rw [hstart]; exact List.cons_ne_nil _ _)
      simp only [hstart, List.head_cons] at this
      simpa using this
    refine Or.inr ⟨_, _, rfl, maximalRuns_cons_token D c r hc, ?_⟩
    rw [hstart] at hle
    have h1 := (List.dropWhile_sublist (fun c => decide (c ∉ D)) (l := r)).length_le
    rw [List.dropWhile_cons_of_pos (by simpa using hc), List.length_tail]
    simp only [List.length_cons] at hle
    omega

theorem strtok_loop_none (D : List Char) (fuel : Nat) (saved : List Char)
    (words : List (List Char)) :
    strtok_loop D fuel none saved words =
      if words.length < BUFFSIZE then .ok (words, saved) else .error .outOfBounds := by
  cases fuel <;> rfl

/-- With enough fuel the token loop stores the pending word and every
maximal run of the saved rest, unless the array has no slot left for one of
them or for the terminating `NULL`. -/
theorem strtok_loop_some (D : List Char) (fuel : Nat) (word saved : List Char)
    (words : List (List Char)) (hfuel : saved.length < fuel) :
    strtok_loop D fuel (some word) saved words =
      if words.length + 1 + (maximalRuns D saved).length < BUFFSIZE then
        .ok (words ++ word :: maximalRuns D saved, [])
      else .error .outOfBounds := by
  induction fuel generalizing word saved words with
  | zero => omega
  | succ fuel ih =>
    rw [strtok_loop]
    by_cases hw : words.length < BUFFSIZE
    · rw [if_pos hw]
      rcases strtok_spec D none saved with ⟨hruns, hnone⟩ | ⟨t, rest, hsome, hruns, hlen⟩
      · simp only [scanned] at hruns
        rw [hnone, hruns, strtok_loop_none]
        simp
      · simp only [scanned] at hruns hlen
        rw [hsome, hruns, ih t rest (words ++ [word]) (by omega)]
        simp only [List.length_append, List.length_cons, List.length_nil, List.append_assoc,
          List.singleton_append]
        have : words.length + 1 + 1 + (maximalRuns D rest).length =
            words.length + 1 + ((maximalRuns D rest).length + 1) := by omega
        rw [this]
    · rw [if_neg hw, if_neg (by omega)]

/-- The first `strtok` call followed by the token loop: the array receives
exactly the maximal runs of the scanned string when they and the
terminating `NULL` fit, and a write leaves the array otherwise. -/
theorem strtok_loop_spec (D : List Char) (s : Option (List Char)) (saved : List Char) :
    strtok_loop D (scanLength s saved) (strtok s D saved).1 (strtok s D saved).2 [] =
      if (maximalRuns D (scanned s saved)).length < BUFFSIZE then
        .ok (maximalRuns D (scanned s saved), [])
      else .error .outOfBounds := by
  have hscan : scanLength s saved = (scanned s saved).length := rfl
  rcases strtok_spec D s saved with ⟨hruns, hnone⟩ | ⟨t, rest, hsome, hruns, hlen⟩
  · rw [hnone, hruns, strtok_loop_none]
  · rw [hsome, hruns, hscan, strtok_loop_some D _ t rest [] hlen]
    simp only [List.length_nil, List.length_cons, List.nil_append]
    have : 0 + 1 + (maximalRuns D rest).length = (maximalRuns D rest).length + 1 := by omega
    rw [this]

/-- When allocation succeeds, `parse` returns the maximal runs of
non-delimiter characters of the string it scans, provided they fit. -/
theorem parse_spec (s : Option (List Char)) (saved : List Char)
    (hfit : (maximalRuns DELIMITER (scanned s saved)).length < BUFFSIZE) :
    parse true s saved = .ret (maximalRuns DELIMITER (scanned s saved), []) := by
  simp only [parse, if_true, strtok_loop_spec, if_pos hfit]

/-- When allocation succeeds and the runs do not fit, `parse` writes
outside `words`. -/
theorem parse_overflow (s : Option (List Char)) (saved : List Char)
    (hfit : ¬ (maximalRuns DELIMITER (scanned s saved)).length < BUFFSIZE) :
    parse true s saved = .fault false .outOfBounds := by
  simp only [parse, if_true, strtok_loop_spec, if_neg hfit]

/-- The maximal runs, joined in order, are the non-delimiter characters of
the string in their original order. -/
theorem maximalRuns_flatten (D : List Char) (s : List Char) :
    (maximalRuns D s).flatten = s.filter (fun c => decide (c ∉ D)) := by
  obtain ⟨n, hn⟩ : ∃ n, s.length = n := ⟨_, rfl⟩
  induction n using Nat.strong_induction_on generalizing s with
  | _ n ih =>
    cases s with
    | nil => simp [maximalRuns_nil]
    | cons c s =>
      by_cases h : c ∈ D
      · rw [maximalRuns_cons_delim D c s h, List.filter_cons_of_neg (by simpa using h)]
        exact ih s.length (by simp [← hn]) s rfl
      · have hsplit := List.takeWhile_append_dropWhile (fun c => decide (c ∉ D)) (c :: s)
        have hle := (List.dropWhile_sublist (fun c => decide (c ∉ D)) (l := c :: s)).length_le
        have htk : ((c :: s).takeWhile (fun c => decide (c ∉ D))).filter
            (fun c => decide (c ∉ D)) = (c :: s).takeWhile (fun c => decide (c ∉ D)) :=
          List.filter_eq_self.mpr (fun x hx =>
            List.mem_takeWhile_imp (p := fun c => decide (c ∉ D)) hx)
        rw [maximalRuns_cons_token D c s h, List.flatten_cons]
        conv_rhs => rw [← hsplit, List.filter_append, htk]
        congr 1
        rw [List.dropWhile_cons_of_pos (by simpa using h)] at hle ⊢
        have h3 := (List.dropWhile_sublist (fun c => decide (c ∉ D)) (l := s)).length_le
        cases hrest : s.dropWhile (fun c => decide (c ∉ D)) with
        | nil => simp [maximalRuns_nil]
        | cons d r =>
          have hd : ¬ (fun c => decide (c ∉ D)) d = true := by
            have := List.head_dropWhile_not (fun c => decide (c ∉ D)) s
              (by rw [hrest]; exact List.cons_ne_nil _ _)
            simp only [hrest, List.head_cons] at this
            simp [this]
          rw [hrest] at h3
          rw [List.tail_cons, List.filter_cons_of_neg (p := fun c => decide (c ∉ D)) hd]
          simp only [List.length_cons] at h3 hn
          exact ih r.length (by omega) r rfl

/-- A maximal run is no longer than the string. -/
theorem maximalRuns_mem_length (D : List Char) (s t : List Char)
    (ht : t ∈ maximalRuns D s) : t.length ≤ s.length := by
  obtain ⟨n, hn⟩ : ∃ n, s.length = n := ⟨_, rfl⟩
  induction n using Nat.strong_induction_on generalizing s with
  | _ n ih =>
    cases s with
    | nil => simp [maximalRuns_nil] at ht
    | cons c s =>
      by_cases h : c ∈ D
      · rw [maximalRuns_cons_delim D c s h] at ht
        have := ih s.length (by simp [← hn]) s ht rfl
        simp only [List.length_cons]
        omega
      · rw [maximalRuns_cons_token D c s h] at ht
        rcases List.mem_cons.mp ht with rfl | ht
        · exact (List.takeWhile_sublist _).length_le
        · have h1 := (List.dropWhile_sublist (fun c => decide (c ∉ D)) (l := c :: s)).length_le
          have h2 := List.length_tail ((c :: s).dropWhile (fun c => decide (c ∉ D)))
          have h3 := ih _ (by rw [← hn]; simp only [List.length_cons] at h1 h2 ⊢; omega) _ ht rfl
          omega

/-- A string that fits the line buffer has at most 40 maximal runs. -/
theorem maximalRuns_le_40 (D : List Char) (s : List Char) (h : s.length < BUFFSIZE) :
    (maximalRuns D s).length ≤ 40 := by
  have := maximalRuns_length D s
  simp only [BUFFSIZE] at h
  omega

/-! ## C1: the tokenizer -/

/-- C1. For every input line (a C string that fits the 80-byte line buffer,
as every line read by `get_line` within bounds does), `parse(line)` returns
exactly the maximal runs of non-delimiter characters of the line, in their
original order; every token is non-empty, no token contains a delimiter,
the tokens joined are the non-delimiter characters of the line, and an empty
or all-delimiter line yields the empty sequence. -/
theorem parse_maximal_runs (line saved : List Char) (hlen : line.length < BUFFSIZE) :
    parse true (some line) saved = .ret (maximalRuns DELIMITER line, []) ∧
    (∀ t ∈ maximalRuns DELIMITER line, t ≠ [] ∧ ∀ c ∈ t, c ∉ DELIMITER) ∧
    (maximalRuns DELIMITER line).flatten = line.filter (fun c => decide (c ∉ DELIMITER)) ∧
    ((∀ c ∈ line, c ∈ DELIMITER) → maximalRuns DELIMITER line = []) := by
  refine ⟨?_, fun t ht => maximalRuns_mem DELIMITER line t ht,
    maximalRuns_flatten DELIMITER line, maximalRuns_all_delim DELIMITER line⟩
  apply parse_spec
  have := maximalRuns_le_40 DELIMITER line hlen
  simp only [scanned, BUFFSIZE]
  omega

/-- C1 at the line `ls -l /tmp`: the tokens are `ls`, `-l`, `/tmp`. -/
theorem parse_maximal_runs_witness :
    "ls -l /tmp".toList.length < BUFFSIZE ∧
    parse true (some "ls -l /tmp".toList) [] =
      .ret (["ls".toList, "-l".toList, "/tmp".toList], []) ∧
    parse true (some "".toList) [] = .ret ([], []) ∧
    parse true (some "   ".toList) [] = .ret ([], []) :=
  ⟨by decide,
    (parse_maximal_runs "ls -l /tmp".toList [] (by decide)).1.trans (by decide),
    by decide, by decide⟩

/-! ## C2 and C5: the dispatcher -/

theorem strcmp_eq_zero (a b : List Char) : strcmp a b = 0 ↔ a = b := by
  induction a generalizing b with
  | nil => cases b <;> simp [strcmp]
  | cons x xs ih =>
    cases b with
    | nil => simp [strcmp]
    | cons y ys =>
      by_cases hxy : x = y
      · simp [strcmp, hxy, ih]
      · by_cases hlt : x.toNat < y.toNat <;> simp [strcmp, hxy, hlt]

/-- The dispatch of `execute_shell`, by the name of the command. -/
theorem execute_shell_call_cons (name : List Char) (rest : List (List Char)) :
    execute_shell_call (name :: rest) =
      if name = "exit".toList then .builtin .shell_exit (name :: rest)
      else if name = "cd".toList then .builtin .shell_cd (name :: rest)
      else if name = "help".toList then .builtin .shell_help (name :: rest)
      else if name = "date".toList then .builtin .shell_date (name :: rest)
      else .external (name :: rest) := by
  simp only [execute_shell_call, built_in_strings, built_in_commands, number_of_built_in,
    List.zip_cons_cons, List.zip_nil_right, List.take_succ_cons, List.take_zero,
    List.find?_cons, List.find?_nil, strcmp_eq_zero]
  simp only [String.toList]
  by_cases h1 : name = ['e', 'x', 'i', 't']
  · simp [h1]
  by_cases h2 : name = ['c', 'd']
  · simp [h2]
  by_cases h3 : name = ['h', 'e', 'l', 'p']
  · simp [h3]
  by_cases h4 : name = ['d', 'a', 't', 'e']
  · simp [h4]
  simp [h1, h2, h3, h4]

/-- The outcome of a child at its `execvp`. -/
theorem exec_or_exit_fst (sys : Sys) (argv : List (List Char)) (msg : String) (w : World) :
    (exec_or_exit sys argv msg w).1 =
      match argv with
      | [] => .fault true .nullDeref
      | file :: _ => if sys.execvp file argv then .replaced else .exit true EXIT_FAILURE := by
  cases argv with
  | nil => rfl
  | cons file more =>
    simp only [exec_or_exit]
    split_ifs <;> rfl

/-- A child never ends the shell process and never returns. -/
theorem exec_or_exit_child (sys : Sys) (argv : List (List Char)) (msg : String) (w : World) :
    (∀ st, (exec_or_exit sys argv msg w).1 ≠ .exit false st) ∧
      (∀ v, (exec_or_exit sys argv msg w).1 ≠ .ret v) := by
  cases argv with
  | nil => exact ⟨fun st h => (by cases h), fun v h => (by cases h)⟩
  | cons file more =>
    simp only [exec_or_exit]
    split_ifs
    · exact ⟨fun st h => (by cases h), fun v h => (by cases h)⟩
    · exact ⟨fun st h => (by cases h), fun v h => (by cases h)⟩

theorem mem_built_in_strings (name : List Char) :
    name ∈ built_in_strings ↔
      name = "exit".toList ∨ name = "cd".toList ∨ name = "help".toList ∨
        name = "date".toList := by
  simp [built_in_strings]

theorem shell_cd_returns (sys : Sys) (name : List Char) (rest : List (List Char))
    (w : World) : (shell_cd sys (name :: rest) w).1 = .ret 1 := by
  cases rest with
  | nil => rfl
  | cons path more =>
    simp only [shell_cd]
    cases sys.chdir w.cwd path <;> rfl

theorem shell_date_returns (sys : Sys) (args : List (List Char)) (w : World) :
    (shell_date sys args w).1 = .ret 1 := by
  simp only [shell_date]
  split <;> rfl

theorem execute_shell_exit (sys : Sys) (rest : List (List Char)) (w : World) :
    execute_shell sys ("exit".toList :: rest) w = shell_exit ("exit".toList :: rest) w := by
  unfold execute_shell
  rw [execute_shell_call_cons, if_pos rfl]
  rfl

theorem execute_shell_cd (sys : Sys) (rest : List (List Char)) (w : World) :
    execute_shell sys ("cd".toList :: rest) w = shell_cd sys ("cd".toList :: rest) w := by
  unfold execute_shell
  rw [execute_shell_call_cons, if_neg (by decide), if_pos rfl]
  rfl

theorem execute_shell_help (sys : Sys) (rest : List (List Char)) (w : World) :
    execute_shell sys ("help".toList :: rest) w = shell_help ("help".toList :: rest) w := by
  unfold execute_shell
  rw [execute_shell_call_cons, if_neg (by decide), if_neg (by decide), if_pos rfl]
  rfl

theorem execute_shell_date (sys : Sys) (rest : List (List Char)) (w : World) :
    execute_shell sys ("date".toList :: rest) w =
      shell_date sys ("date".toList :: rest) w := by
  unfold execute_shell
  rw [execute_shell_call_cons, if_neg (by decide), if_neg (by decide), if_neg (by decide),
    if_pos rfl]
  rfl

theorem execute_shell_external (sys : Sys) (name : List Char) (rest : List (List Char))
    (w : World) (hn : name ∉ built_in_strings) :
    execute_shell_call (name :: rest) = .external (name :: rest) ∧
      execute_shell sys (name :: rest) w = run_external sys (name :: rest) w := by
  rw [mem_built_in_strings] at hn
  push_neg at hn
  unfold execute_shell
  rw [execute_shell_call_cons, if_neg hn.1, if_neg hn.2.1, if_neg hn.2.2.1, if_neg hn.2.2.2]
  exact ⟨rfl, rfl⟩

/-- C2. For every token sequence and every answer of the system,
`execute_shell` returns 0 (Terminate) if and only if the sequence is
non-empty and its first token is exactly `exit`.  The empty sequence, the
built-ins `cd`, `help` and `date`, and an external command in the parent
return a non-zero value (Continue): 1, or `EXIT_FAILURE` on the fork-failure
path of `run_external`.  In the forked child of an external command the call
does not return: the image is replaced or the child exits. -/
theorem execute_shell_terminate_iff (sys : Sys) (argv : List (List Char)) (w : World) :
    ((execute_shell sys argv w).1 = .ret 0 ↔ argv.head? = some "exit".toList) ∧
    (argv = [] → (execute_shell sys argv w).1 = .ret 1) ∧
    (∀ name rest, argv = name :: rest →
      (name = "cd".toList ∨ name = "help".toList ∨ name = "date".toList) →
        (execute_shell sys argv w).1 = .ret 1) ∧
    (∀ name rest, argv = name :: rest → name ∉ built_in_strings →
      (0 < sys.fork1 → (execute_shell sys argv w).1 = .ret 1) ∧
      (sys.fork1 < 0 →
        (execute_shell sys argv w).1 = .ret EXIT_FAILURE ∧ EXIT_FAILURE ≠ 0) ∧
      (sys.fork1 = 0 →
        (execute_shell sys argv w).1 = .replaced ∨
          (execute_shell sys argv w).1 = .exit true EXIT_FAILURE)) := by
  cases argv with
  | nil => simp [execute_shell, execute_shell_call]
  | cons name rest =>
    have hne : ∀ v : Int, v ≠ 0 → ∀ o : Outcome Int, o = .ret v → (o = .ret 0 ↔ False) := by
      intro v hv o ho
      subst ho
      simp [hv]
    refine ⟨?_, by simp, ?_, ?_⟩
    · simp only [List.head?_cons, Option.some.injEq]
      by_cases h1 : name = "exit".toList
      · subst h1
        rw [execute_shell_exit]
        simp [shell_exit]
      by_cases h2 : name = "cd".toList
      · subst h2
        rw [execute_shell_cd, hne 1 (by decide) _ (shell_cd_returns sys _ rest w)]
        simp [h1]
      by_cases h3 : name = "help".toList
      · subst h3
        rw [execute_shell_help, hne 1 (by decide) (shell_help _ w).1 rfl]
        simp [h1]
      by_cases h4 : name = "date".toList
      · subst h4
        rw [execute_shell_date, hne 1 (by decide) _ (shell_date_returns sys _ w)]
        simp [h1]
      rw [(execute_shell_external sys name rest w (by rw [mem_built_in_strings]; tauto)).2]
      simp only [h1, iff_false, run_external]
      split_ifs
      · exact (exec_or_exit_child sys _ _ _).2 0
      · simp [EXIT_FAILURE]
      · simp
    · intro n r hnr hn
      obtain ⟨rfl, rfl⟩ := List.cons.inj hnr
      rcases hn with rfl | rfl | rfl
      · rw [execute_shell_cd]
        exact shell_cd_returns sys _ _ w
      · rw [execute_shell_help]
        rfl
      · rw [execute_shell_date]
        exact shell_date_returns sys _ w
    · intro n r hnr hn
      obtain ⟨rfl, rfl⟩ := List.cons.inj hnr
      rw [(execute_shell_external sys name rest w hn).2]
      refine ⟨fun h => ?_, fun h => ?_, fun h => ?_⟩
      · simp only [run_external, if_neg (ne_of_gt h), if_neg (not_lt.mpr (le_of_lt h))]
      · simp only [run_external, if_neg (ne_of_lt h), if_pos h]
        exact ⟨trivial, by decide⟩
      · simp only [run_external, if_pos h, exec_or_exit_fst]
        split_ifs <;> simp

/-- C5. For every non-empty token sequence, `execute_shell` runs a built-in
handler if and only if `tokens[0]` equals one of the four names `exit`,
`cd`, `help`, `date`, and then it runs the handler paired with that name on
the unchanged sequence; for every other name it calls `run_external` with
the unchanged sequence and runs no built-in. -/
theorem execute_shell_dispatch (sys : Sys) (name : List Char) (rest : List (List Char))
    (w : World) :
    ((∃ h args, execute_shell_call (name :: rest) = .builtin h args) ↔
      (name = "exit".toList ∨ name = "cd".toList ∨ name = "help".toList ∨
        name = "date".toList)) ∧
    (∀ h args, execute_shell_call (name :: rest) = .builtin h args ↔
      (args = name :: rest ∧
        ((name = "exit".toList ∧ h = .shell_exit) ∨ (name = "cd".toList ∧ h = .shell_cd) ∨
          (name = "help".toList ∧ h = .shell_help) ∨
          (name = "date".toList ∧ h = .shell_date)))) ∧
    (name ∉ built_in_strings → execute_shell_call (name :: rest) = .external (name :: rest)) ∧
    (name = "exit".toList → execute_shell sys (name :: rest) w = shell_exit (name :: rest) w) ∧
    (name = "cd".toList → execute_shell sys (name :: rest) w = shell_cd sys (name :: rest) w) ∧
    (name = "help".toList → execute_shell sys (name :: rest) w = shell_help (name :: rest) w) ∧
    (name = "date".toList →
      execute_shell sys (name :: rest) w = shell_date sys (name :: rest) w) ∧
    (name ∉ built_in_strings →
      execute_shell sys (name :: rest) w = run_external sys (name :: rest) w) := by
  refine ⟨?_, ?_, fun hn => (execute_shell_external sys name rest w hn).1,
    fun h => h ▸ execute_shell_exit sys rest w, fun h => h ▸ execute_shell_cd sys rest w,
    fun h => h ▸ execute_shell_help sys rest w, fun h => h ▸ execute_shell_date sys rest w,
    fun hn => (execute_shell_external sys name rest w hn).2⟩
  · rw [execute_shell_call_cons]
    constructor
    · rintro ⟨h, args, hc⟩
      by_contra hn
      push_neg at hn
      rw [if_neg hn.1, if_neg hn.2.1, if_neg hn.2.2.1, if_neg hn.2.2.2] at hc
      cases hc
    · rintro (h | h | h | h)
      · exact ⟨_, _, by rw [if_pos h]⟩
      · exact ⟨_, _, by rw [h, if_neg (by decide), if_pos rfl]⟩
      · exact ⟨_, _, by rw [h, if_neg (by decide), if_neg (by decide), if_pos rfl]⟩
      · exact ⟨_, _, by
          rw [h, if_neg (by decide), if_neg (by decide), if_neg (by decide), if_pos rfl]⟩
  · intro h args
    rw [execute_shell_call_cons]
    have d12 : "cd".toList ≠ "exit".toList := by decide
    have d13 : "help".toList ≠ "exit".toList := by decide
    have d14 : "date".toList ≠ "exit".toList := by decide
    have d23 : "help".toList ≠ "cd".toList := by decide
    have d24 : "date".toList ≠ "cd".toList := by decide
    have d34 : "date".toList ≠ "help".toList := by decide
    constructor
    · intro hc
      split_ifs at hc with h1 h2 h3 h4
      · cases hc; exact ⟨rfl, Or.inl ⟨h1, rfl⟩⟩
      · cases hc; exact ⟨rfl, Or.inr (Or.inl ⟨h2, rfl⟩)⟩
      · cases hc; exact ⟨rfl, Or.inr (Or.inr (Or.inl ⟨h3, rfl⟩))⟩
      · cases hc; exact ⟨rfl, Or.inr (Or.inr (Or.inr ⟨h4, rfl⟩))⟩
    · rintro ⟨rfl, (⟨hn, rfl⟩ | ⟨hn, rfl⟩ | ⟨hn, rfl⟩ | ⟨hn, rfl⟩)⟩
      · rw [if_pos hn]
      · rw [hn, if_neg d12, if_pos rfl]
      · rw [hn, if_neg d13, if_neg d23, if_pos rfl]
      · rw [hn, if_neg d14, if_neg d24, if_neg d34, if_pos rfl]

/-- C5 at names that differ from `exit` by case, by a missing letter or by
a trailing blank: all three go to `run_external`. -/
theorem execute_shell_dispatch_witness :
    execute_shell_call ["Exit".toList] = .external ["Exit".toList] ∧
    execute_shell_call ["exi".toList] = .external ["exi".toList] ∧
    execute_shell_call ["exit ".toList, "x".toList] =
      .external ["exit ".toList, "x".toList] :=
  ⟨(execute_shell_dispatch sysOK "Exit".toList [] world0).2.2.1 (by decide),
    (execute_shell_dispatch sysOK "exi".toList [] world0).2.2.1 (by decide),
    (execute_shell_dispatch sysOK "exit ".toList ["x".toList] world0).2.2.1 (by decide)⟩

/-! ## C6: `cd` -/

/-- C6. For every argument sequence beginning with `cd`, `shell_cd` returns
1 (Continue), and: if `args[1]` is absent it writes the usage error to the
error stream, attempts no directory change and leaves the working directory
unchanged; if `args[1]` is present and `chdir` fails it writes an error to
the error stream and the working directory is unchanged; if `args[1]` is
present and `chdir` succeeds the working directory becomes the directory
named by `args[1]` and nothing is written to the error stream. -/
theorem shell_cd_spec (sys : Sys) (args : List (List Char)) (w : World)
    (hcd : args.head? = some "cd".toList) :
    (shell_cd sys args w).1 = .ret 1 ∧
    (args[1]? = none →
      (shell_cd sys args w).2.stderr = w.stderr ++ ["cd_shell needs an argument\n"] ∧
      (shell_cd sys args w).2.ops = w.ops ∧
      (shell_cd sys args w).2.cwd = w.cwd) ∧
    (∀ path, args[1]? = some path → sys.chdir w.cwd path = none →
      (shell_cd sys args w).2.stderr = w.stderr ++ ["couldn't load that directory\n"] ∧
      (shell_cd sys args w).2.ops = w.ops ++ [.chdir path] ∧
      (shell_cd sys args w).2.cwd = w.cwd) ∧
    (∀ path dir, args[1]? = some path → sys.chdir w.cwd path = some dir →
      (shell_cd sys args w).2.stderr = w.stderr ∧
      (shell_cd sys args w).2.ops = w.ops ++ [.chdir path] ∧
      (shell_cd sys args w).2.cwd = dir) := by
  cases args with
  | nil => simp at hcd
  | cons name rest =>
    refine ⟨shell_cd_returns sys name rest w, ?_, ?_, ?_⟩
    · intro h
      cases rest with
      | nil => exact ⟨rfl, rfl, rfl⟩
      | cons p more => simp at h
    · intro path hp hfail
      cases rest with
      | nil => simp at hp
      | cons p more =>
        simp only [List.getElem?_cons_succ, List.getElem?_cons_zero, Option.some.injEq] at hp
        subst hp
        simp [shell_cd, hfail, World.op, World.eprint]
    · intro path dir hp hok
      cases rest with
      | nil => simp at hp
      | cons p more =>
        simp only [List.getElem?_cons_succ, List.getElem?_cons_zero, Option.some.injEq] at hp
        subst hp
        simp [shell_cd, hok, World.op]

/-- C6 at `cd /tmp` from `/`: the working directory becomes `/tmp` and the
error stream stays empty. -/
theorem shell_cd_spec_witness :
    ["cd".toList, "/tmp".toList].head? = some "cd".toList ∧
    (shell_cd sysOK ["cd".toList, "/tmp".toList] world0).1 = .ret 1 ∧
    (shell_cd sysOK ["cd".toList, "/tmp".toList] world0).2.stderr = [] ∧
    (shell_cd sysOK ["cd".toList, "/tmp".toList] world0).2.cwd = "/tmp".toList :=
  ⟨rfl, (shell_cd_spec sysOK ["cd".toList, "/tmp".toList] world0 rfl).1,
    ((shell_cd_spec sysOK ["cd".toList, "/tmp".toList] world0 rfl).2.2.2
      "/tmp".toList "/tmp".toList rfl rfl).1,
    ((shell_cd_spec sysOK ["cd".toList, "/tmp".toList] world0 rfl).2.2.2
      "/tmp".toList "/tmp".toList rfl rfl).2.2⟩

/-! ## C7 and C8: the pipe executor -/

/-- C7. In every run of `pipe_execute` in which `pipe` and both forks
succeed, the parent returns 0 and its system calls are exactly, in this
order: `pipe`, `fork` (left child), `waitpid` on the left child, `fork`
(right child), `close` of the read end, `close` of the write end, `waitpid`
on the right child.  It writes nothing and keeps its working directory. -/
theorem pipe_execute_parent_ops (sys : Sys) (left right : List (List Char)) (w : World)
    (hpipe : sys.pipe ≠ -1) (hleft : 0 < sys.fork1) (hright : 0 < sys.fork2) :
    pipe_execute sys left right w =
      (.ret 0, { w with ops := w.ops ++ [.pipe, .fork, .waitpid sys.fork1, .fork,
        .close sys.pipefd.1, .close sys.pipefd.2, .waitpid sys.fork2] }) := by
  simp only [pipe_execute, if_neg hpipe, if_neg (ne_of_gt hleft),
    if_neg (not_lt.mpr (le_of_lt hleft)), if_neg (ne_of_gt hright),
    if_neg (not_lt.mpr (le_of_lt hright)), World.op, List.append_assoc, List.cons_append,
    List.nil_append]

/-- C7 in the sample environment, for `ls | wc`. -/
theorem pipe_execute_parent_ops_witness :
    (pipe_execute sysOK ["ls".toList] ["wc".toList] world0).2.ops =
      [.pipe, .fork, .waitpid 100, .fork, .close 3, .close 4, .waitpid 101] :=
  congrArg (fun r => r.2.ops)
    (pipe_execute_parent_ops sysOK ["ls".toList] ["wc".toList] world0 (by decide) (by decide)
      (by decide))

theorem maximalRuns_single (D : List Char) (t : List Char) (hne : t ≠ [])
    (ht : ∀ c ∈ t, c ∉ D) : maximalRuns D t = [t] := by
  have h : ∀ x ∈ t, ¬ (fun c => decide (c ∈ D)) x = true := by
    intro x hx
    simpa using ht x hx
  simp only [maximalRuns, List.splitOnP_eq_single _ _ h]
  simp [hne]

theorem maximalRuns_append (D : List Char) (t : List Char) (d : Char) (rest : List Char)
    (hne : t ≠ []) (ht : ∀ c ∈ t, c ∉ D) (hd : d ∈ D) :
    maximalRuns D (t ++ d :: rest) = t :: maximalRuns D rest := by
  have h : ∀ x ∈ t, ¬ (fun c => decide (c ∈ D)) x = true := by
    intro x hx
    simpa using ht x hx
  simp only [maximalRuns, List.splitOnP_first _ _ h d (by simpa using hd)]
  rw [List.filter_cons_of_pos (by simpa using hne)]

theorem not_mem_PIPE (t : List Char) (h : '|' ∉ t) : ∀ c ∈ t, c ∉ PIPE := by
  intro c hc hp
  simp only [PIPE, List.mem_singleton] at hp
  exact h (hp ▸ hc)

/-- The split of `pipe_handler` stores the non-empty `|`-separated pieces of
the line when they and the terminating `NULL` fit into `components`. -/
theorem pipe_components_spec (line saved : List Char) :
    pipe_components line saved =
      if (maximalRuns PIPE line).length < BUFFSIZE then .ok (maximalRuns PIPE line, [])
      else .error .outOfBounds :=
  strtok_loop_spec PIPE (some line) saved

theorem parse_total (s : Option (List Char)) (saved : List Char)
    (h : (scanned s saved).length < BUFFSIZE) :
    parse true s saved = .ret (maximalRuns DELIMITER (scanned s saved), []) := by
  apply parse_spec
  have := maximalRuns_le_40 DELIMITER _ h
  simp only [BUFFSIZE]
  omega

theorem parse_alloc_fail (s : Option (List Char)) (saved : List Char) :
    parse false s saved = .exit false EXIT_FAILURE := rfl

/-- What `pipe_handler` passes to `pipe_execute`, for a line that fits the
line buffer: the tokens of the first and of the second non-empty
`|`-separated piece.  With one such piece `components[1]` is the `NULL`
terminator and `right` is empty; with none, `components[1]` was never
written. -/
theorem pipe_handler_args_eq (sys : Sys) (line saved : List Char)
    (hlen : line.length < BUFFSIZE) :
    pipe_handler_args sys line saved =
      if sys.malloc_words = true then
        match maximalRuns PIPE line with
        | [] => .fault false .uninitialised
        | [a] =>
          if sys.malloc_words2 = true then .ret (maximalRuns DELIMITER a, [], [])
          else .exit false EXIT_FAILURE
        | a :: b :: _ =>
          if sys.malloc_words2 = true then
            .ret (maximalRuns DELIMITER a, maximalRuns DELIMITER b, [])
          else .exit false EXIT_FAILURE
      else .exit false EXIT_FAILURE := by
  have hfit : (maximalRuns PIPE line).length < BUFFSIZE := by
    have := maximalRuns_le_40 PIPE line hlen
    simp only [BUFFSIZE]
    omega
  have hmem : ∀ t ∈ maximalRuns PIPE line, t.length < BUFFSIZE := fun t ht =>
    lt_of_le_of_lt (maximalRuns_mem_length PIPE line t ht) hlen
  simp only [pipe_handler_args, pipe_components_spec, if_pos hfit]
  cases hm1 : sys.malloc_words with
  | false => cases hc : maximalRuns PIPE line <;> simp [read_component, parse_alloc_fail]
  | true =>
    cases hm2 : sys.malloc_words2 with
    | false =>
      rcases hc : maximalRuns PIPE line with _ | ⟨a, _ | ⟨b, more⟩⟩
      · simp [read_component, parse_total none [] (by simp [scanned, BUFFSIZE])]
      · have ha := hmem a (by simp [hc])
        simp [read_component, parse_total (some a) [] ha, parse_alloc_fail]
      · have ha := hmem a (by simp [hc])
        simp [read_component, parse_total (some a) [] ha, parse_alloc_fail]
    | true =>
      rcases hc : maximalRuns PIPE line with _ | ⟨a, _ | ⟨b, more⟩⟩
      · simp [read_component, parse_total none [] (by simp [scanned, BUFFSIZE])]
      · have ha := hmem a (by simp [hc])
        simp [read_component, parse_total (some a) [] ha,
          parse_total none [] (by simp [scanned, BUFFSIZE]), scanned, maximalRuns_nil]
      · have ha := hmem a (by simp [hc])
        have hb := hmem b (by simp [hc])
        simp [read_component, parse_total (some a) [] ha, parse_total (some b) [] hb, scanned]

theorem pipe_segments_append (a rest : List Char) (ha : '|' ∉ a) :
    pipe_segments (a ++ '|' :: rest) = a :: pipe_segments rest := by
  have h : ∀ x ∈ a, ¬ (fun c => decide (c = '|')) x = true := by
    intro x hx hx2
    simp only [decide_eq_true_eq] at hx2
    exact ha (hx2 ▸ hx)
  simp only [pipe_segments, List.splitOnP_first _ _ h '|' (by simp)]

/-! ## C9: lines with more than one `|` -/

/-- C9, as amended. For every line that fits the line buffer and contains
more than one `|`, written `a|b|x` with `a` and `b` free of `|`, if neither
of the first two segments `a` and `b` is empty then the token sequences that
`pipe_handler` passes to `pipe_execute` are the tokenizations of `a` and of
`b`; they do not depend on `x`, the text after the second `|`. -/
theorem pipe_handler_args_first_two (sys : Sys) (a b x saved : List Char)
    (hm1 : sys.malloc_words = true) (hm2 : sys.malloc_words2 = true)
    (ha : '|' ∉ a) (hb : '|' ∉ b) (hane : a ≠ []) (hbne : b ≠ [])
    (hlen : (a ++ '|' :: (b ++ '|' :: x)).length < BUFFSIZE) :
    pipe_segments (a ++ '|' :: (b ++ '|' :: x)) = a :: b :: pipe_segments x ∧
    pipe_handler_args sys (a ++ '|' :: (b ++ '|' :: x)) saved =
      .ret (maximalRuns DELIMITER a, maximalRuns DELIMITER b, []) ∧
    (∀ y : List Char, (a ++ '|' :: (b ++ '|' :: y)).length < BUFFSIZE →
      pipe_handler_args sys (a ++ '|' :: (b ++ '|' :: y)) saved =
        pipe_handler_args sys (a ++ '|' :: (b ++ '|' :: x)) saved) := by
  have key : ∀ y : List Char, (a ++ '|' :: (b ++ '|' :: y)).length < BUFFSIZE →
      pipe_handler_args sys (a ++ '|' :: (b ++ '|' :: y)) saved =
        .ret (maximalRuns DELIMITER a, maximalRuns DELIMITER b, []) := by
    intro y hy
    have hruns : maximalRuns PIPE (a ++ '|' :: (b ++ '|' :: y)) =
        a :: b :: maximalRuns PIPE y := by
      rw [maximalRuns_append PIPE a '|' _ hane (not_mem_PIPE a ha) (by simp [PIPE]),
        maximalRuns_append PIPE b '|' _ hbne (not_mem_PIPE b hb) (by simp [PIPE])]
    rw [pipe_handler_args_eq sys _ saved hy, hruns]
    simp [hm1, hm2]
  refine ⟨?_, key x hlen, fun y hy => (key y hy).trans (key x hlen).symm⟩
  rw [pipe_segments_append a _ ha, pipe_segments_append b _ hb]

/-- C9 as amended, at `ls -l | sort | wc`. -/
theorem pipe_handler_args_first_two_witness :
    pipe_handler_args sysOK "ls -l | sort | wc".toList [] =
      .ret (["ls".toList, "-l".toList], ["sort".toList], []) :=
  (pipe_handler_args_first_two sysOK "ls -l ".toList " sort ".toList " wc".toList [] rfl rfl
    (by decide) (by decide) (by decide) (by decide) (by decide)).2.1.trans (by decide)

/-- C9 as stated fails at `a||b`: the second `|`-separated segment is empty,
yet the right token sequence is `b`, taken from the text after the second
`|`; replacing that text by `c` changes it. -/
theorem pipe_handler_args_empty_segment :
    pipe_segments "a||b".toList = ["a".toList, [], "b".toList] ∧
    pipe_handler_args sysOK "a||b".toList [] = .ret (["a".toList], ["b".toList], []) ∧
    pipe_handler_args sysOK "a||c".toList [] = .ret (["a".toList], ["c".toList], []) ∧
    ¬ (∃ saved, pipe_handler_args sysOK "a||b".toList [] =
      .ret (maximalRuns DELIMITER ((pipe_segments "a||b".toList).getD 0 []),
        maximalRuns DELIMITER ((pipe_segments "a||b".toList).getD 1 []), saved)) := by
  refine ⟨by decide, by decide, by decide, ?_⟩
  rintro ⟨saved, h⟩
  have h2 : pipe_handler_args sysOK "a||b".toList [] =
      .ret (["a".toList], ["b".toList], []) := by decide
  rw [h2] at h
  have h3 : maximalRuns DELIMITER ((pipe_segments "a||b".toList).getD 1 []) = [] := by decide
  rw [h3] at h
  simp at h

/-! ## C3: the pipe split -/

theorem pipe_pred_eq :
    (fun c : Char => decide (c ∉ PIPE)) = (fun c : Char => decide (c ≠ '|')) := by
  funext c
  simp [PIPE]

/-- C3, as amended. For every line that fits the line buffer, the pipe split
yields none if and only if the line contains no `|`.  When the line contains
a `|` and does not begin with one, the left part is exactly the text before
the first `|`; when moreover the first `|` is followed by a character other
than `|`, the right part is the text that starts immediately after the first
`|` and ends before the next `|` or at the end of the line. -/
theorem pipe_split_spec (line saved : List Char) (hlen : line.length < BUFFSIZE) :
    (pipe_split line saved = .ok none ↔ '|' ∉ line) ∧
    (∀ a rest : List Char, line = a ++ '|' :: rest → '|' ∉ a → a ≠ [] →
      ∃ right, pipe_split line saved = .ok (some (some a, right)) ∧
        ∀ (c : Char) (rest1 : List Char), rest = c :: rest1 → c ≠ '|' →
          right = some (rest.takeWhile (fun c => decide (c ≠ '|')))) := by
  have hfit : (maximalRuns PIPE line).length < BUFFSIZE := by
    have := maximalRuns_le_40 PIPE line hlen
    simp only [BUFFSIZE]
    omega
  constructor
  · by_cases hp : '|' ∈ line
    · simp only [pipe_split, if_pos hp, pipe_components_spec, if_pos hfit, hp, not_true_eq_false,
        iff_false]
      rcases maximalRuns PIPE line with _ | ⟨a, _ | ⟨b, more⟩⟩ <;> simp [read_component]
    · simp [pipe_split, hp]
  · intro a rest hline ha hane
    have hp : '|' ∈ line := by simp [hline]
    have hruns : maximalRuns PIPE line = a :: maximalRuns PIPE rest := by
      rw [hline, maximalRuns_append PIPE a '|' _ hane (not_mem_PIPE a ha) (by simp [PIPE])]
    rw [hruns] at hfit
    simp only [pipe_split, if_pos hp, pipe_components_spec, hruns, if_pos hfit]
    cases hr : maximalRuns PIPE rest with
    | nil =>
      refine ⟨none, by simp [read_component], ?_⟩
      intro c rest1 hrest hc
      rw [hrest, maximalRuns_cons_token PIPE c rest1 (by simpa [PIPE] using hc)] at hr
      cases hr
    | cons t ts =>
      refine ⟨some t, by simp [read_component], ?_⟩
      intro c rest1 hrest hc
      rw [hrest, maximalRuns_cons_token PIPE c rest1 (by simpa [PIPE] using hc)] at hr
      rw [hrest, ← pipe_pred_eq]
      exact congrArg some (List.cons.inj hr).1.symm

/-- C3 as amended, at `ls -l | wc -l` and at `ls -l`. -/
theorem pipe_split_spec_witness :
    pipe_split "ls -l | wc -l".toList [] =
      .ok (some (some "ls -l ".toList, some " wc -l".toList)) ∧
    pipe_split "ls -l".toList [] = .ok none :=
  ⟨by
    obtain ⟨right, h1, h2⟩ := (pipe_split_spec "ls -l | wc -l".toList [] (by decide)).2
      "ls -l ".toList " wc -l".toList (by decide) (by decide) (by decide)
    rw [h1, h2 ' ' "wc -l".toList (by decide) (by decide)]
    rfl,
   (pipe_split_spec "ls -l".toList [] (by decide)).1.mpr (by decide)⟩

/-- C3 as stated fails at `|ls`: the text before the first `|` is empty, yet
the left part is `ls`.  It also fails at `a||b`: the text after the first
`|` is `|b`, yet the right part is `b`. -/
theorem pipe_split_leading_pipe :
    pipe_split "|ls".toList [] = .ok (some (some "ls".toList, none)) ∧
    "|ls".toList.takeWhile (fun c => decide (c ≠ '|')) = [] ∧
    ¬ (∃ right, pipe_split "|ls".toList [] =
      .ok (some (some ("|ls".toList.takeWhile (fun c => decide (c ≠ '|'))), right))) ∧
    pipe_split "a||b".toList [] = .ok (some (some "a".toList, some "b".toList)) := by
  refine ⟨rfl, by decide, ?_, rfl⟩
  rintro ⟨right, h⟩
  have h2 : pipe_split "|ls".toList [] = .ok (some (some "ls".toList, none)) := rfl
  rw [h2] at h
  have h3 : "|ls".toList.takeWhile (fun c => decide (c ≠ '|')) = [] := by decide
  rw [h3] at h
  simp at h

/-! ## C10: array bounds -/

/-- The loop of `get_line` stores the characters before the newline or the
end of input, as long as they and the terminating NUL fit the buffer. -/
theorem get_line_loop_spec (l rest acc : List Char) (hnl : '\n' ∉ l)
    (hlen : (acc ++ l).length < BUFFSIZE) (hrest : rest = [] ∨ rest.head? = some '\n') :
    get_line_loop (l ++ rest) acc = .ok (acc ++ l, rest.tail) := by
  induction l generalizing acc with
  | nil =>
    simp only [List.append_nil] at hlen
    cases rest with
    | nil => simp [get_line_loop, hlen]
    | cons c rest1 =>
      have hc : c = '\n' := by simpa using hrest
      simp [get_line_loop, hlen, hc]
  | cons c l ih =>
    have hc : c ≠ '\n' := fun h => hnl (h ▸ List.mem_cons_self _ _)
    have hl : '\n' ∉ l := fun h => hnl (List.mem_cons_of_mem _ h)
    have hacc : acc.length < BUFFSIZE := by
      simp only [List.length_append, List.length_cons] at hlen
      omega
    rw [List.cons_append, get_line_loop, if_neg hc, if_pos hacc,
      ih (acc ++ [c]) hl (by simpa using hlen)]
    simp

/-- Reading a line that fits the buffer returns its characters and leaves
the input after the newline. -/
theorem get_line_spec (l rest : List Char) (hlen : l.length < BUFFSIZE) (hnl : '\n' ∉ l)
    (hrest : rest = [] ∨ rest.head? = some '\n') :
    get_line true (l ++ rest) = .ok (l, rest.tail) := by
  simp only [get_line, if_true]
  simpa using get_line_loop_spec l rest [] hnl (by simpa using hlen) hrest

theorem cstr_length_le (buf : List Char) : (cstr buf).length ≤ buf.length :=
  (List.takeWhile_sublist _).length_le

/-- For every input line of fewer than 80 characters before its newline or
the end of input, `get_line` stores exactly the characters read and the
terminating NUL inside its 80-byte buffer; when its allocation succeeds
`parse` produces at most 40 tokens, so its writes to `words`, the
terminating `NULL` included, are below index 80; and `pipe_handler` stores
at most 40 components, so its writes to `components`, the terminating `NULL`
included, are below index 80.  When the line has a character other than `|`,
each of the two calls of `parse` in `pipe_handler` either ends the process
on a failed allocation or produces at most 40 tokens. -/
theorem line_writes_in_bounds_of_component (l rest saved : List Char)
    (hlen : l.length < BUFFSIZE) (hnl : '\n' ∉ l)
    (hrest : rest = [] ∨ rest.head? = some '\n') :
    get_line true (l ++ rest) = .ok (l, rest.tail) ∧
    (parse true (some (cstr l)) saved = .ret (maximalRuns DELIMITER (cstr l), []) ∧
      (maximalRuns DELIMITER (cstr l)).length ≤ 40) ∧
    (pipe_components (cstr l) saved = .ok (maximalRuns PIPE (cstr l), []) ∧
      (maximalRuns PIPE (cstr l)).length ≤ 40) ∧
    (∀ sys : Sys, maximalRuns PIPE (cstr l) ≠ [] →
      pipe_handler_args sys (cstr l) saved = .exit false EXIT_FAILURE ∨
      ∃ left right, pipe_handler_args sys (cstr l) saved = .ret (left, right, []) ∧
        left.length ≤ 40 ∧ right.length ≤ 40) := by
  have hc : (cstr l).length < BUFFSIZE := lt_of_le_of_lt (cstr_length_le l) hlen
  have h40 := maximalRuns_le_40 PIPE (cstr l) hc
  have hmem : ∀ t ∈ maximalRuns PIPE (cstr l), (maximalRuns DELIMITER t).length ≤ 40 :=
    fun t ht => maximalRuns_le_40 DELIMITER t
      (lt_of_le_of_lt (maximalRuns_mem_length PIPE (cstr l) t ht) hc)
  refine ⟨get_line_spec l rest hlen hnl hrest,
    ⟨parse_total (some (cstr l)) saved hc, maximalRuns_le_40 DELIMITER _ hc⟩, ⟨?_, h40⟩, ?_⟩
  · rw [pipe_components_spec, if_pos (by simp only [BUFFSIZE]; omega)]
  · intro sys hne
    rw [pipe_handler_args_eq sys (cstr l) saved hc]
    rcases hruns : maximalRuns PIPE (cstr l) with _ | ⟨a, _ | ⟨b, more⟩⟩
    · exact absurd hruns hne
    · have ha := hmem a (by simp [hruns])
      cases sys.malloc_words <;> cases sys.malloc_words2 <;> simp
      exact ⟨_, _, ⟨rfl, rfl⟩, ha, Nat.zero_le _⟩
    · have ha := hmem a (by simp [hruns])
      have hb := hmem b (by simp [hruns])
      cases sys.malloc_words <;> cases sys.malloc_words2 <;> simp
      exact ⟨_, _, ⟨rfl, rfl⟩, ha, hb⟩

/-- C10 at its failing input, the line `|` (one character, so within the
80-byte buffer).  `get_line` stores it in bounds and the line goes to
`pipe_handler`, whose `strtok` split finds no component: only
`components[0] = NULL` is written.  `pipe_handler` still reads
`components[1]`, a slot never written, and hands that indeterminate pointer
to `parse`: the writes of `strtok` and of `words[i] = word` that follow it
have no bound.  The shell loop leaves defined behaviour in that round. -/
theorem pipe_handler_unwritten_component (sys : Sys) (saved : List Char) (garbage : Int) :
    "|".toList.length < BUFFSIZE ∧
    get_line true "|".toList = .ok ("|".toList, []) ∧
    pipe_components (cstr "|".toList) saved = .ok ([], []) ∧
    read_component [] 0 = .ok none ∧
    read_component [] 1 = .error .uninitialised ∧
    pipe_handler_args sys (cstr "|".toList) saved =
      (if sys.malloc_words = true then .fault false .uninitialised
        else .exit false EXIT_FAILURE) ∧
    (loop_shell [sysOK] garbage "|".toList world0).1 =
      .left 1 (.fault false .uninitialised) := by
  have hruns : maximalRuns PIPE (cstr "|".toList) = [] := by decide
  refine ⟨by decide, rfl, ?_, rfl, rfl, ?_, rfl⟩
  · rw [pipe_components_spec, hruns]
    rfl
  · rw [pipe_handler_args_eq sys _ saved (by decide), hruns]

/-! ## C4: the shell loop -/

/-- C4 at its failing input: the first line read is `ls | wc` and the
uninitialised `fn_signal` holds 0.  Every call succeeds, `pipe_handler`
returns, and the loop stops after this first round, whatever input and
rounds follow; with a non-zero value in `fn_signal` the same input keeps
the loop running. -/
theorem loop_shell_first_line_pipe (rounds : List Sys) (more : List Char) :
    (loop_shell (sysOK :: rounds) 0 ("ls | wc".toList ++ '\n' :: more) world0).1 =
      .stopped 1 ∧
    (loop_shell [sysOK, sysOK] 1 "ls | wc\nhelp\n".toList world0).1 = .running 2 := by
  constructor
  · have hline : get_line sysOK.malloc_line ("ls | wc".toList ++ '\n' :: more) =
        .ok ("ls | wc".toList, more) :=
      get_line_spec "ls | wc".toList ('\n' :: more) (by decide) (by decide) (Or.inr rfl)
    simp only [loop_shell, loop_shell_from, hline]
    rfl
  · rfl

end MiniShell
